import Mathlib

/-!
Verification development for the K-hop feature-propagation engine of the
dpgnn repository (src/models.py).

The Python code is shallowly embedded over the real numbers:

* a feature matrix is a function of node index and column index,
* graph topology is an ordered list of directed (source, target) pairs,
* edge weights are a list of reals aligned positionally with the edges,
* `torch_geometric.utils.add_remaining_self_loops` and
  `torch_geometric.nn.conv.gcn_conv.gcn_norm` (version 1.6, dense path)
  are embedded directly from their library sources since `KProp` depends
  on their semantics,
* `MessagePassing.propagate` with `message = edge_weight * x_j` and
  aggregation `add` (resp. `mean`, which divides by the clamped-to-one
  incoming-edge count, as in `torch_scatter.scatter_mean`) is embedded as
  an explicit scatter over the edge list,
* the mutable cache `_cached_x` is threaded as explicit state through
  `forward`,
* dropout is a caller-supplied matrix transformation (the identity in
  evaluation mode); training-time randomness is outside this deterministic
  embedding.
-/

noncomputable section

namespace DPGNN

/-- Dense real feature matrix: node index, then column index. -/
def Mat : Type := ℕ → ℕ → ℝ

/-- Elementwise multiplication of a matrix by a scalar
(`x * coeff` in the Python source). -/
def smulMat (a : ℝ) (x : Mat) : Mat := fun i j => a * x i j

/-- State of one `KProp` module as set up by `KProp.__init__`
(src/models.py lines 16-26).  The learned linear map `self.fc` is carried
as its weight matrix `fcW` (out_channels x in_channels) and bias `fcB`. -/
structure KProp where
  in_channels : ℕ
  out_channels : ℕ
  fcW : ℕ → ℕ → ℝ
  fcB : ℕ → ℝ
  K : ℕ
  p : ℝ
  aggregator : String
  cached : Bool

/-- Modelled construction of a `KProp` module: `KProp.__init__` performs no
validation of `aggregator` or `K` (and `MessagePassing.__init__` accepts
both resulting `aggr` strings), so construction never fails.  The `Except`
wrapper models Python's ability to raise at construction time. -/
def KProp.mk? (ic oc : ℕ) (W : ℕ → ℕ → ℝ) (b : ℕ → ℝ) (K : ℕ) (p : ℝ)
    (aggregator : String) (cached : Bool) : Except String KProp :=
  .ok ⟨ic, oc, W, b, K, p, aggregator, cached⟩

/-- The `aggr` argument passed to `MessagePassing.__init__`
(line 17: `'add' if aggregator == 'gcn' else 'mean'`). -/
def KProp.aggr (m : KProp) : String := if m.aggregator = "gcn" then "add" else "mean"

/-- Line 23: `self.add_self_loops = K == 1`. -/
def KProp.addSelfLoops (m : KProp) : Bool := m.K == 1

/-- The learned linear map `self.fc` applied row-wise. -/
def KProp.fc (m : KProp) (x : Mat) : Mat :=
  fun i j => (∑ k ∈ Finset.range m.in_channels, m.fcW j k * x i k) + m.fcB j

/-- Weight kept for the self-loop appended at node `i`: the weight of the
last self-loop already present at `i` (indexed assignment, last write
wins), or the fill value when `i` had none. -/
def loopWeight (pairs : List ((ℕ × ℕ) × ℝ)) (fill : ℝ) (i : ℕ) : ℝ :=
  match (pairs.filter (fun e => e.1.1 == i && e.1.2 == i)).getLast? with
  | some e => e.2
  | none => fill

/-- Embedding of `torch_geometric.utils.add_remaining_self_loops`
(version 1.6): existing self-loops are removed, a self-loop is appended
for every node `0..N-1`, with weight `fill` except that a node that
already had a self-loop keeps its (last) weight. -/
def add_remaining_self_loops (edges : List (ℕ × ℕ)) (w : List ℝ) (N : ℕ)
    (fill : ℝ) : List (ℕ × ℕ) × List ℝ :=
  (((edges.zip w).filter (fun e => e.1.1 != e.1.2)).map Prod.fst
      ++ (List.range N).map (fun i => (i, i)),
   ((edges.zip w).filter (fun e => e.1.1 != e.1.2)).map Prod.snd
      ++ (List.range N).map (loopWeight (edges.zip w) fill))

/-- Weighted in-degree: `deg = scatter_add(edge_weight, col)` in `gcn_norm`. -/
def weightedInDegree (ei : List (ℕ × ℕ)) (w : List ℝ) (i : ℕ) : ℝ :=
  (((ei.zip w).filter (fun e => e.1.2 == i)).map Prod.snd).sum

/-- The `deg.pow(-0.5)` step of `gcn_norm` with its
`masked_fill(inf, 0)` guard: zero degree yields factor zero. -/
def degInvSqrt (d : ℝ) : ℝ := if d = 0 then 0 else (Real.sqrt d)⁻¹

/-- Per-edge output weights of `gcn_norm`:
`deg_inv_sqrt[row] * edge_weight * deg_inv_sqrt[col]`. -/
def gcnWeights (ei : List (ℕ × ℕ)) (w : List ℝ) : List ℝ :=
  (ei.zip w).map (fun e =>
    degInvSqrt (weightedInDegree ei w e.1.1) * e.2 *
      degInvSqrt (weightedInDegree ei w e.1.2))

/-- The intermediate state of `gcn_norm` after the default-weight and
self-loop steps, before degree rescaling. -/
def gcnAug (edges : List (ℕ × ℕ)) (ew : Option (List ℝ)) (N : ℕ)
    (addSelfLoops : Bool) : List (ℕ × ℕ) × List ℝ :=
  if addSelfLoops then
    add_remaining_self_loops edges (ew.getD (List.replicate edges.length (1 : ℝ))) N 1
  else (edges, ew.getD (List.replicate edges.length (1 : ℝ)))

/-- Embedding of `gcn_norm` (torch_geometric 1.6, `improved=False`, so
`fill_value = 1`): missing weights default to all-ones, self-loops are
added when requested, and each weight is rescaled by the inverse square
roots of the weighted in-degrees of its endpoints. -/
def gcn_norm (edges : List (ℕ × ℕ)) (ew : Option (List ℝ)) (N : ℕ)
    (addSelfLoops : Bool) : List (ℕ × ℕ) × List ℝ :=
  ((gcnAug edges ew N addSelfLoops).1,
   gcnWeights (gcnAug edges ew N addSelfLoops).1 (gcnAug edges ew N addSelfLoops).2)

/-- Edge-weight resolution of `KProp.neighborhood_aggregation`
(src/models.py lines 39-49): the `gcn` aggregator always routes through
`gcn_norm` (with the caller's weights, if any); every other aggregator
discards the caller's weights, uses all-ones, and adds remaining
self-loops exactly when `K == 1`. -/
def KProp.resolveEdges (m : KProp) (edges : List (ℕ × ℕ)) (ew : Option (List ℝ))
    (N : ℕ) : List (ℕ × ℕ) × List ℝ :=
  if m.aggregator = "gcn" then
    gcn_norm edges ew N m.addSelfLoops
  else
    let w := List.replicate edges.length (1 : ℝ)
    if m.addSelfLoops then add_remaining_self_loops edges w N 1 else (edges, w)

/-- Scatter-add of the messages `edge_weight * x_j` onto target nodes:
`propagate` with `aggr='add'`. -/
def propagateAdd (ei : List (ℕ × ℕ)) (w : List ℝ) (x : Mat) : Mat :=
  fun i j => (((ei.zip w).filter (fun e => e.1.2 == i)).map
    (fun e => e.2 * x e.1.1 j)).sum

/-- Number of incoming edges at node `i`. -/
def inCount (ei : List (ℕ × ℕ)) (i : ℕ) : ℕ :=
  (ei.filter (fun e => e.2 == i)).length

/-- `propagate` with `aggr='mean'`: the scatter-add divided by the
incoming-edge count clamped to at least one
(`torch_scatter.scatter_mean` uses `count.clamp(min=1)`). -/
def propagateMean (ei : List (ℕ × ℕ)) (w : List ℝ) (x : Mat) : Mat :=
  fun i j => propagateAdd ei w x i j / ((max (inCount ei i) 1 : ℕ) : ℝ)

/-- One `self.propagate(edge_index, x=x, edge_weight=edge_weight)` call,
dispatching on the `aggr` string chosen at construction. -/
def KProp.propagate (m : KProp) (ei : List (ℕ × ℕ)) (w : List ℝ) : Mat → Mat :=
  if m.aggr = "add" then propagateAdd ei w else propagateMean ei w

/-- The aggregation operator obtained after edge-weight resolution: the
map applied to the feature matrix once per loop iteration. -/
def KProp.aggOp (m : KProp) (edges : List (ℕ × ℕ)) (ew : Option (List ℝ))
    (N : ℕ) : Mat → Mat :=
  m.propagate (m.resolveEdges edges ew N).1 (m.resolveEdges edges ew N).2

/-- The decay loop of lines 51-54: `coeff` starts at `1`, each iteration
replaces `x` by `propagate(x) * coeff` and then multiplies `coeff` by
`c = exp(-p)`. -/
def diffLoop (agg : Mat → Mat) (c : ℝ) : ℕ → ℝ → Mat → Mat
  | 0, _, x => x
  | k + 1, coeff, x => diffLoop agg c k (coeff * c) (smulMat coeff (agg x))

/-- Embedding of `KProp.neighborhood_aggregation` (lines 38-56). -/
def KProp.neighborhood_aggregation (m : KProp) (x : Mat) (edges : List (ℕ × ℕ))
    (ew : Option (List ℝ)) (N : ℕ) : Mat :=
  diffLoop (m.aggOp edges ew N) (Real.exp (-m.p)) m.K 1 x

/-- Embedding of `KProp.forward` (lines 28-36), with the mutable cache
`_cached_x` made explicit: the result pairs the output matrix with the
cache state after the call. -/
def KProp.forward (m : KProp) (cache : Option Mat) (x : Mat)
    (edges : List (ℕ × ℕ)) (ew : Option (List ℝ)) (N : ℕ) : Mat × Option Mat :=
  match cache with
  | some xc => (m.fc xc, some xc)
  | none =>
      let xd := m.neighborhood_aggregation x edges ew N
      (m.fc xd, if m.cached then some xd else none)

/-- The fixed alpha constant of PyTorch's SELU activation. -/
def seluAlpha : ℝ := 1.6732632423543772848170429916717

/-- The fixed scale constant of PyTorch's SELU activation. -/
def seluScale : ℝ := 1.0507009873554804934193349852946

/-- Scaled exponential linear unit, `torch.selu`. -/
def selu (x : ℝ) : ℝ :=
  if 0 < x then seluScale * x else seluScale * (seluAlpha * (Real.exp x - 1))

/-- Row-wise `F.log_softmax(x, dim=1)` over `C` classes. -/
def log_softmax (C : ℕ) (v : ℕ → ℝ) (j : ℕ) : ℝ :=
  v j - Real.log (∑ k ∈ Finset.range C, Real.exp (v k))

/-- State of the two-stage classifier `GNN` (src/models.py lines 63-76),
carrying the learned parameters of both `KProp` stages. -/
structure GNN where
  input_dim : ℕ
  hidden_dim : ℕ
  output_dim : ℕ
  K : ℕ
  p : ℝ
  aggregator : String
  W1 : ℕ → ℕ → ℝ
  b1 : ℕ → ℝ
  W2 : ℕ → ℕ → ℝ
  b2 : ℕ → ℝ

/-- Stage 1: `KProp(input_dim, hidden_dim, K=K, aggregator, p, cached=True)`. -/
def GNN.conv1 (g : GNN) : KProp :=
  ⟨g.input_dim, g.hidden_dim, g.W1, g.b1, g.K, g.p, g.aggregator, true⟩

/-- Stage 2: `KProp(hidden_dim, output_dim, K=1, aggregator, p, cached=False)`. -/
def GNN.conv2 (g : GNN) : KProp :=
  ⟨g.hidden_dim, g.output_dim, g.W2, g.b2, 1, g.p, g.aggregator, false⟩

/-- Embedding of `GNN.forward` (lines 70-76).  `drop` is the dropout
application of this call (identity in evaluation mode); `cache` is the
explicit cache state of `conv1`, returned updated. -/
def GNN.forward (g : GNN) (drop : Mat → Mat) (cache : Option Mat) (x : Mat)
    (edges : List (ℕ × ℕ)) (ew : Option (List ℝ)) (N : ℕ) : Mat × Option Mat :=
  let r1 := g.conv1.forward cache x edges ew N
  let x2 := drop (fun i j => selu (r1.1 i j))
  let r2 := g.conv2.forward none x2 edges ew N
  (fun i j => log_softmax g.output_dim (r2.1 i) j, r1.2)

/-- Self-loops are appended for every node below `N`. -/
theorem mem_add_remaining_self_loops (edges : List (ℕ × ℕ)) (w : List ℝ) (N : ℕ)
    (fill : ℝ) (i : ℕ) (hi : i < N) :
    (i, i) ∈ (add_remaining_self_loops edges w N fill).1 :=
  List.mem_append.mpr (Or.inr (List.mem_map.mpr ⟨i, List.mem_range.mpr hi, rfl⟩))

/-- Claim C2: a cache-enabled `KProp` stores the diffused matrix on its
first `forward` call, and every subsequent call returns the learned linear
map `fc` applied to that stored matrix, leaving the cache unchanged,
regardless of the features, edge list, edge weights or node count passed
to the later call. -/
theorem KProp.cached_forward_is_stale (ic oc : ℕ) (W : ℕ → ℕ → ℝ) (b : ℕ → ℝ)
    (K : ℕ) (p : ℝ) (agg : String) (x1 : Mat) (e1 : List (ℕ × ℕ))
    (w1 : Option (List ℝ)) (N1 : ℕ) :
    (KProp.forward ⟨ic, oc, W, b, K, p, agg, true⟩ none x1 e1 w1 N1).2
      = some (KProp.neighborhood_aggregation ⟨ic, oc, W, b, K, p, agg, true⟩ x1 e1 w1 N1)
    ∧ ∀ (c x2 : Mat) (e2 : List (ℕ × ℕ)) (w2 : Option (List ℝ)) (N2 : ℕ),
        KProp.forward ⟨ic, oc, W, b, K, p, agg, true⟩ (some c) x2 e2 w2 N2
          = (KProp.fc ⟨ic, oc, W, b, K, p, agg, true⟩ c, some c) :=
  ⟨rfl, fun _ _ _ _ _ => rfl⟩

/-- Claim C5, counterexample: constructing a `KProp` with an unsupported
aggregator selector and hop count `K = 0` succeeds (no configuration
error is raised at construction time). -/
theorem KProp.mk_bogus_succeeds :
    KProp.mk? 1 1 (fun _ _ => 0) (fun _ => 0) 0 0 "unsupported" false
      = Except.ok ⟨1, 1, fun _ _ => 0, fun _ => 0, 0, 0, "unsupported", false⟩ :=
  rfl

/-- Claim C5, amended: `KProp` construction never fails; no validation of
the aggregator selector or of the hop count is performed. -/
theorem KProp.mk_never_fails (ic oc : ℕ) (W : ℕ → ℕ → ℝ) (b : ℕ → ℝ) (K : ℕ)
    (p : ℝ) (agg : String) (cch : Bool) :
    KProp.mk? ic oc W b K p agg cch = Except.ok ⟨ic, oc, W, b, K, p, agg, cch⟩ :=
  rfl

/-- Claim C10: constructing a `KProp` with `K = 0` succeeds, its self-loop
flag is false, weight resolution leaves the edge set unchanged, the
aggregation loop runs zero times (diffusion is the identity), and
`forward` returns exactly the learned linear map applied to the unmodified
input features. -/
theorem KProp.hop_zero_is_linear (ic oc : ℕ) (W : ℕ → ℕ → ℝ) (b : ℕ → ℝ)
    (p : ℝ) (agg : String) (cch : Bool) (x : Mat) (edges : List (ℕ × ℕ))
    (ew : Option (List ℝ)) (N : ℕ) :
    KProp.mk? ic oc W b 0 p agg cch = Except.ok ⟨ic, oc, W, b, 0, p, agg, cch⟩
    ∧ KProp.addSelfLoops ⟨ic, oc, W, b, 0, p, agg, cch⟩ = false
    ∧ (KProp.resolveEdges ⟨ic, oc, W, b, 0, p, agg, cch⟩ edges ew N).1 = edges
    ∧ KProp.neighborhood_aggregation ⟨ic, oc, W, b, 0, p, agg, cch⟩ x edges ew N = x
    ∧ (KProp.forward ⟨ic, oc, W, b, 0, p, agg, cch⟩ none x edges ew N).1
        = KProp.fc ⟨ic, oc, W, b, 0, p, agg, cch⟩ x := by
  refine ⟨rfl, rfl, ?_, rfl, rfl⟩
  by_cases hg : agg = "gcn" <;>
    simp [KProp.resolveEdges, KProp.addSelfLoops, gcn_norm, gcnAug, hg]

/-- Claim C9: a `KProp` built with any aggregator selector other than
"gcn" behaves, on every cache state and every input, exactly like the one
built with the "mean" selector and otherwise identical configuration. -/
theorem KProp.unknown_aggregator_is_mean (ic oc : ℕ) (W : ℕ → ℕ → ℝ)
    (b : ℕ → ℝ) (K : ℕ) (p : ℝ) (cch : Bool) (s : String) (hs : s ≠ "gcn")
    (cache : Option Mat) (x : Mat) (edges : List (ℕ × ℕ))
    (ew : Option (List ℝ)) (N : ℕ) :
    KProp.forward ⟨ic, oc, W, b, K, p, s, cch⟩ cache x edges ew N
      = KProp.forward ⟨ic, oc, W, b, K, p, "mean", cch⟩ cache x edges ew N := by
  have hr : KProp.resolveEdges ⟨ic, oc, W, b, K, p, s, cch⟩ edges ew N
      = KProp.resolveEdges ⟨ic, oc, W, b, K, p, "mean", cch⟩ edges ew N := by
    simp [KProp.resolveEdges, KProp.addSelfLoops, hs]
  have ha : KProp.aggr ⟨ic, oc, W, b, K, p, s, cch⟩
      = KProp.aggr ⟨ic, oc, W, b, K, p, "mean", cch⟩ := by
    simp [KProp.aggr, hs]
  have hop : KProp.aggOp ⟨ic, oc, W, b, K, p, s, cch⟩ edges ew N
      = KProp.aggOp ⟨ic, oc, W, b, K, p, "mean", cch⟩ edges ew N := by
    simp only [KProp.aggOp, KProp.propagate, hr, ha]
  have hna : KProp.neighborhood_aggregation ⟨ic, oc, W, b, K, p, s, cch⟩ x edges ew N
      = KProp.neighborhood_aggregation ⟨ic, oc, W, b, K, p, "mean", cch⟩ x edges ew N := by
    simp only [KProp.neighborhood_aggregation, hop]
  cases cache with
  | some c => rfl
  | none =>
      simp only [KProp.forward, hna]
      rfl

/-- Claim C9, witness: the operator built with the selector "sym" agrees
with the "mean" operator on a concrete input. -/
theorem KProp.unknown_aggregator_is_mean_witness :
    KProp.forward ⟨1, 1, fun _ _ => 0, fun _ => 0, 1, 0, "sym", true⟩
        none (fun _ _ => 0) [(0, 1)] none 2
      = KProp.forward ⟨1, 1, fun _ _ => 0, fun _ => 0, 1, 0, "mean", true⟩
        none (fun _ _ => 0) [(0, 1)] none 2 :=
  KProp.unknown_aggregator_is_mean 1 1 (fun _ _ => 0) (fun _ => 0) 1 0 true
    "sym" (by decide) none (fun _ _ => 0) [(0, 1)] none 2

/-- Claim C3, counterexample: a "mean" `KProp` with caller-supplied edge
weight 2 on the single edge (0, 1) resolves to weight 1, not to the
supplied weight: the supplied weights are not used as-is. -/
theorem KProp.supplied_weights_discarded :
    KProp.resolveEdges ⟨1, 1, fun _ _ => 0, fun _ => 0, 2, 0, "mean", false⟩
        [(0, 1)] (some [2]) 2
      ≠ ([(0, 1)], [2]) := by
  intro h
  have h2 := congrArg Prod.snd h
  simp [KProp.resolveEdges, KProp.addSelfLoops] at h2

/-- Claim C3, amended: caller-supplied edge weights are not used as-is.
Under every non-"gcn" (uniform) aggregator they are discarded outright
(weight resolution gives the same result as when no weights are
supplied), and under the "gcn" aggregator they are passed through degree
normalization: with the self-loop flag off, each supplied weight is
rescaled by the inverse-square-root degree factors computed from the
supplied weights themselves. -/
theorem KProp.supplied_weights_behavior (edges : List (ℕ × ℕ)) (w : List ℝ)
    (N : ℕ) :
    (∀ m : KProp, m.aggregator ≠ "gcn" →
        m.resolveEdges edges (some w) N = m.resolveEdges edges none N)
    ∧ (∀ m : KProp, m.aggregator = "gcn" → m.addSelfLoops = false →
        m.resolveEdges edges (some w) N = (edges, gcnWeights edges w)) := by
  constructor
  · intro m hm
    simp [KProp.resolveEdges, hm]
  · intro m h1 h2
    simp [KProp.resolveEdges, h1, h2, gcn_norm, gcnAug]

/-- Claim C3 (amended), witness: concrete instances of both halves on the
edge list [(0, 1)] with supplied weights [2]. -/
theorem KProp.supplied_weights_behavior_witness :
    KProp.resolveEdges ⟨1, 1, fun _ _ => 0, fun _ => 0, 2, 0, "mean", false⟩
        [(0, 1)] (some [2]) 2
      = KProp.resolveEdges ⟨1, 1, fun _ _ => 0, fun _ => 0, 2, 0, "mean", false⟩
        [(0, 1)] none 2
    ∧ KProp.resolveEdges ⟨1, 1, fun _ _ => 0, fun _ => 0, 2, 0, "gcn", false⟩
        [(0, 1)] (some [2]) 2
      = ([(0, 1)], gcnWeights [(0, 1)] [2]) :=
  ⟨(KProp.supplied_weights_behavior [(0, 1)] [2] 2).1
      ⟨1, 1, fun _ _ => 0, fun _ => 0, 2, 0, "mean", false⟩ (by decide),
   (KProp.supplied_weights_behavior [(0, 1)] [2] 2).2
      ⟨1, 1, fun _ _ => 0, fun _ => 0, 2, 0, "gcn", false⟩ rfl rfl⟩

/-- Claim C4: during weight resolution, when `K = 1` every node below the
node count has a self-loop in the post-normalization edge set (under both
aggregators), and when `K >= 2` the edge set is returned unchanged, so no
self-loops are added beyond those already present. -/
theorem KProp.self_loop_policy (m : KProp) (edges : List (ℕ × ℕ))
    (ew : Option (List ℝ)) (N : ℕ) :
    (m.K = 1 → ∀ i : ℕ, i < N → (i, i) ∈ (m.resolveEdges edges ew N).1)
    ∧ (2 ≤ m.K → (m.resolveEdges edges ew N).1 = edges) := by
  constructor
  · intro hK i hi
    have hflag : m.addSelfLoops = true := by
      simp [KProp.addSelfLoops, hK]
    by_cases hg : m.aggregator = "gcn" <;>
      simp [KProp.resolveEdges, hg, hflag, gcn_norm, gcnAug,
        mem_add_remaining_self_loops _ _ _ _ i hi]
  · intro hK
    have hflag : m.addSelfLoops = false := by
      simp only [KProp.addSelfLoops, beq_eq_false_iff_ne, ne_eq]
      omega
    by_cases hg : m.aggregator = "gcn" <;>
      simp [KProp.resolveEdges, hg, hflag, gcn_norm, gcnAug]

/-- Claim C4, witness: with `K = 1` the node 0 self-loop appears for a
concrete gcn operator, and with `K = 2` a concrete mean operator returns
the edge set unchanged. -/
theorem KProp.self_loop_policy_witness :
    (0, 0) ∈ (KProp.resolveEdges
        ⟨1, 1, fun _ _ => 0, fun _ => 0, 1, 0, "gcn", false⟩ [(0, 1)] none 2).1
    ∧ (KProp.resolveEdges
        ⟨1, 1, fun _ _ => 0, fun _ => 0, 2, 0, "mean", false⟩ [(0, 1)] none 2).1
      = [(0, 1)] :=
  ⟨(KProp.self_loop_policy ⟨1, 1, fun _ _ => 0, fun _ => 0, 1, 0, "gcn", false⟩
      [(0, 1)] none 2).1 rfl 0 (by decide),
   (KProp.self_loop_policy ⟨1, 1, fun _ _ => 0, fun _ => 0, 2, 0, "mean", false⟩
      [(0, 1)] none 2).2 (by decide)⟩

/-- Scaling by one is the identity. -/
theorem smulMat_one (x : Mat) : smulMat 1 x = x :=
  funext fun _ => funext fun _ => one_mul _

/-- Scalar scalings of a matrix compose multiplicatively. -/
theorem smulMat_smulMat (a c : ℝ) (x : Mat) :
    smulMat a (smulMat c x) = smulMat (a * c) x :=
  funext fun i => funext fun j => by simp [smulMat, mul_assoc]

/-- Summing a left-scaled list of reals pulls the factor out. -/
theorem sum_map_mul_left_aux {α : Type} (a : ℝ) (l : List α) (f : α → ℝ) :
    (l.map fun e => a * f e).sum = a * (l.map f).sum := by
  induction l with
  | nil => simp
  | cons h t ih => simp [ih, mul_add]

/-- The add-scatter is homogeneous in the feature matrix. -/
theorem propagateAdd_smul (ei : List (ℕ × ℕ)) (w : List ℝ) (a : ℝ) (x : Mat) :
    propagateAdd ei w (smulMat a x) = smulMat a (propagateAdd ei w x) := by
  funext i j
  simp only [propagateAdd, smulMat, mul_left_comm _ a]
  exact sum_map_mul_left_aux a _ _

/-- The mean-scatter is homogeneous in the feature matrix. -/
theorem propagateMean_smul (ei : List (ℕ × ℕ)) (w : List ℝ) (a : ℝ) (x : Mat) :
    propagateMean ei w (smulMat a x) = smulMat a (propagateMean ei w x) := by
  funext i j
  simp only [propagateMean, propagateAdd_smul, smulMat]
  ring

/-- The resolved aggregation operator is homogeneous in the feature
matrix, whichever aggregator is configured. -/
theorem KProp.aggOp_smul (m : KProp) (edges : List (ℕ × ℕ))
    (ew : Option (List ℝ)) (N : ℕ) (a : ℝ) (x : Mat) :
    m.aggOp edges ew N (smulMat a x) = smulMat a (m.aggOp edges ew N x) := by
  unfold KProp.aggOp KProp.propagate
  split
  · exact propagateAdd_smul _ _ a x
  · exact propagateMean_smul _ _ a x

/-- Iterates of a homogeneous matrix map commute with scalar scaling. -/
theorem iterate_smul (f : Mat → Mat)
    (hf : ∀ (a : ℝ) (x : Mat), f (smulMat a x) = smulMat a (f x)) (k : ℕ)
    (a : ℝ) (x : Mat) : f^[k] (smulMat a x) = smulMat a (f^[k] x) := by
  induction k generalizing x with
  | zero => rfl
  | succ k ih =>
      rw [Function.iterate_succ_apply, Function.iterate_succ_apply, hf, ih]

/-- Closed form of the decay loop for a homogeneous aggregation operator:
running `k` iterations from running coefficient `coeff` scales the
`k`-times-aggregated matrix by `coeff ^ k * c ^ (0 + 1 + ... + (k-1))`. -/
theorem diffLoop_closed_form (f : Mat → Mat)
    (hf : ∀ (a : ℝ) (x : Mat), f (smulMat a x) = smulMat a (f x)) (c : ℝ)
    (k : ℕ) (coeff : ℝ) (x : Mat) :
    diffLoop f c k coeff x
      = smulMat (coeff ^ k * c ^ (∑ i ∈ Finset.range k, i)) (f^[k] x) := by
  induction k generalizing coeff x with
  | zero => simp [diffLoop, smulMat_one]
  | succ k ih =>
      rw [diffLoop, ih, iterate_smul f hf, smulMat_smulMat,
        Function.iterate_succ_apply]
      rw [Finset.sum_range_succ, mul_pow, pow_add, pow_add]
      ring_nf

/-- The cumulative decay applied by `neighborhood_aggregation` equals
`exp (-(p * (K * (K - 1) / 2)))` (the division is the exact natural-number
one, since `K * (K - 1)` is even). -/
theorem KProp.diffusion_scaled (m : KProp) (x : Mat) (edges : List (ℕ × ℕ))
    (ew : Option (List ℝ)) (N : ℕ) :
    m.neighborhood_aggregation x edges ew N
      = smulMat (Real.exp (-(m.p * ((m.K * (m.K - 1) / 2 : ℕ) : ℝ))))
          ((m.aggOp edges ew N)^[m.K] x) := by
  unfold KProp.neighborhood_aggregation
  rw [diffLoop_closed_form _ (m.aggOp_smul edges ew N) _ _ _ _, one_pow, one_mul,
    Finset.sum_range_id, ← Real.exp_nat_mul]
  ring_nf

/-- Claim C1: the diffusion stage of `KProp` applies the cumulative
multiplicative decay `exp (-(p * (K * (K - 1) / 2)))` to the
`K`-times-aggregated signal (the running coefficient starts at 1 and is
multiplied by `exp (-p)` after every iteration, so the compounded factor
is `exp (-p)` raised to `0 + 1 + ... + (K - 1)`); in particular with
`K = 2` and `p = log 2` the diffusion result is the twice-aggregated
signal scaled by `1 / 2`. -/
theorem KProp.diffusion_decay (m : KProp) (x : Mat) (edges : List (ℕ × ℕ))
    (ew : Option (List ℝ)) (N : ℕ) :
    m.neighborhood_aggregation x edges ew N
      = smulMat (Real.exp (-(m.p * ((m.K * (m.K - 1) / 2 : ℕ) : ℝ))))
          ((m.aggOp edges ew N)^[m.K] x)
    ∧ ∀ (ic oc : ℕ) (W : ℕ → ℕ → ℝ) (b : ℕ → ℝ) (agg : String) (cch : Bool)
        (y : Mat) (edges' : List (ℕ × ℕ)) (ew' : Option (List ℝ)) (N' : ℕ),
        KProp.neighborhood_aggregation ⟨ic, oc, W, b, 2, Real.log 2, agg, cch⟩
            y edges' ew' N'
          = smulMat (1 / 2)
              ((KProp.aggOp ⟨ic, oc, W, b, 2, Real.log 2, agg, cch⟩
                  edges' ew' N')^[2] y) := by
  refine ⟨m.diffusion_scaled x edges ew N, ?_⟩
  intro ic oc W b agg cch y edges' ew' N'
  rw [KProp.diffusion_scaled]
  have hc : Real.exp (-(Real.log 2 * ((2 * (2 - 1) / 2 : ℕ) : ℝ))) = 1 / 2 := by
    rw [show ((2 * (2 - 1) / 2 : ℕ) : ℝ) = 1 by norm_num, mul_one, Real.exp_neg,
      Real.exp_log two_pos, one_div]
  exact congrArg
    (fun t => smulMat t ((KProp.aggOp ⟨ic, oc, W, b, 2, Real.log 2, agg, cch⟩
      edges' ew' N')^[2] y)) hc

/-- Exponentiating a `log_softmax` row and summing over the class range
gives exactly one, provided there is at least one class. -/
theorem sum_exp_log_softmax (C : ℕ) (hC : 0 < C) (v : ℕ → ℝ) :
    ∑ j ∈ Finset.range C, Real.exp (log_softmax C v j) = 1 := by
  have hS : 0 < ∑ k ∈ Finset.range C, Real.exp (v k) :=
    Finset.sum_pos (fun k _ => Real.exp_pos _) ⟨0, Finset.mem_range.mpr hC⟩
  simp only [log_softmax, Real.exp_sub, Real.exp_log hS]
  rw [← Finset.sum_div, div_self (ne_of_gt hS)]

/-- Claim C7: every row of the classifier output is a vector of
log-probabilities: exponentiating a row of `GNN.forward` and summing over
the class axis equals one (exactly, in real arithmetic), for any
parameters, dropout behavior, cache state, features and topology. -/
theorem GNN.forward_rows_are_log_probabilities (g : GNN) (drop : Mat → Mat)
    (cache : Option Mat) (x : Mat) (edges : List (ℕ × ℕ))
    (ew : Option (List ℝ)) (N : ℕ) (i : ℕ) (hC : 0 < g.output_dim) :
    ∑ j ∈ Finset.range g.output_dim,
        Real.exp ((g.forward drop cache x edges ew N).1 i j) = 1 :=
  sum_exp_log_softmax g.output_dim hC _

/-- Claim C7, witness: a concrete one-class classifier forward pass whose
output row exponentiates and sums to one. -/
theorem GNN.forward_rows_are_log_probabilities_witness :
    ∑ j ∈ Finset.range
        (GNN.output_dim ⟨1, 1, 1, 1, 0, "gcn", fun _ _ => 0, fun _ => 0,
          fun _ _ => 0, fun _ => 0⟩),
        Real.exp ((GNN.forward ⟨1, 1, 1, 1, 0, "gcn", fun _ _ => 0, fun _ => 0,
          fun _ _ => 0, fun _ => 0⟩ id none (fun _ _ => 0) [(0, 1)] none 2).1 0 j)
      = 1 :=
  GNN.forward_rows_are_log_probabilities
    ⟨1, 1, 1, 1, 0, "gcn", fun _ _ => 0, fun _ => 0, fun _ _ => 0, fun _ => 0⟩
    id none (fun _ _ => 0) [(0, 1)] none 2 0 (by decide)

/-- The two components of `add_remaining_self_loops` stay aligned. -/
theorem arsl_length_eq (edges : List (ℕ × ℕ)) (w : List ℝ) (N : ℕ) (fill : ℝ) :
    (add_remaining_self_loops edges w N fill).1.length
      = (add_remaining_self_loops edges w N fill).2.length := by
  simp [add_remaining_self_loops]

/-- With all-ones input weights and fill value one, every weight produced
by `add_remaining_self_loops` is one. -/
theorem arsl_snd_ones (edges : List (ℕ × ℕ)) (w : List ℝ) (N : ℕ)
    (hw : ∀ c ∈ w, c = 1) :
    ∀ c ∈ (add_remaining_self_loops edges w N 1).2, c = 1 := by
  intro c hc
  rcases List.mem_append.mp hc with h | h
  · rcases List.mem_map.mp h with ⟨e, he, rfl⟩
    exact hw _ (List.of_mem_zip (List.mem_filter.mp he).1).2
  · rcases List.mem_map.mp h with ⟨i, _, rfl⟩
    unfold loopWeight
    split
    · rename_i e heq
      exact hw _ (List.of_mem_zip
        (List.mem_filter.mp (List.mem_of_getLast?_eq_some heq)).1).2
    · rfl

/-- The two components of `gcnAug` (with default weights) stay aligned. -/
theorem gcnAug_length_eq (edges : List (ℕ × ℕ)) (N : ℕ) (sl : Bool) :
    (gcnAug edges none N sl).1.length = (gcnAug edges none N sl).2.length := by
  cases sl <;> simp [gcnAug, add_remaining_self_loops]

/-- With default weights, every weight held by `gcnAug` is one. -/
theorem gcnAug_snd_ones (edges : List (ℕ × ℕ)) (N : ℕ) (sl : Bool) :
    ∀ c ∈ (gcnAug edges none N sl).2, c = 1 := by
  cases sl with
  | false =>
      intro c hc
      simp only [gcnAug, Bool.false_eq_true, if_false, Option.getD_none] at hc
      exact List.eq_of_mem_replicate hc
  | true =>
      intro c hc
      simp only [gcnAug, if_true, Option.getD_none] at hc
      exact arsl_snd_ones _ _ _ (fun d hd => List.eq_of_mem_replicate hd) c hc

/-- A weighted in-degree over nonnegative weights is nonnegative. -/
theorem weightedInDegree_nonneg (ei : List (ℕ × ℕ)) (w : List ℝ) (i : ℕ)
    (hw : ∀ c ∈ w, 0 ≤ c) : 0 ≤ weightedInDegree ei w i := by
  apply List.sum_nonneg
  intro a ha
  rcases List.mem_map.mp ha with ⟨e, he, rfl⟩
  exact hw _ (List.of_mem_zip (List.mem_filter.mp he).1).2

/-- Product of the two degree factors collapses to the inverse square
root of the degree product, including the zero-degree case (where the
masked factor makes the product zero, matching division-by-zero
conventions for the closed form). -/
theorem degInvSqrt_mul (a c : ℝ) (ha : 0 ≤ a) :
    degInvSqrt a * degInvSqrt c = 1 / Real.sqrt (a * c) := by
  by_cases h1 : a = 0
  · simp [degInvSqrt, h1]
  · by_cases h2 : c = 0
    · simp [degInvSqrt, h2]
    · simp only [degInvSqrt, if_neg h1, if_neg h2]
      rw [Real.sqrt_mul ha, one_div, mul_inv]

/-- Mapping over a zip with an all-ones second list collapses to a map
over the first list. -/
theorem zip_map_of_ones {β : Type} (f : (ℕ × ℕ) × ℝ → β) :
    ∀ (l : List (ℕ × ℕ)) (w : List ℝ), l.length = w.length →
      (∀ c ∈ w, c = 1) → (l.zip w).map f = l.map (fun a => f (a, 1)) := by
  intro l
  induction l with
  | nil => intro w _ _; simp
  | cons a t ih =>
      intro w hl hw
      cases w with
      | nil => simp at hl
      | cons c wt =>
          have hc : c = 1 := hw c (List.mem_cons_self c wt)
          rw [List.zip_cons_cons, List.map_cons, List.map_cons, hc,
            ih wt (by simpa using hl) (fun d hd => hw d (List.mem_cons_of_mem _ hd))]

/-- Claim C6: under the symmetric (gcn) scheme with default all-ones
weights, the output weight of every edge of the (possibly self-loop
augmented) edge list equals `1 / sqrt (deg src * deg dst)`, with `deg`
the weighted in-degree on the augmented graph; and a zero-degree
endpoint forces the factor product to zero through the masked degree
factor (no epsilon guard, no error). -/
theorem gcn_norm_symmetric_weights (edges : List (ℕ × ℕ)) (N : ℕ) (sl : Bool) :
    (gcn_norm edges none N sl).2
      = (gcnAug edges none N sl).1.map (fun a =>
          1 / Real.sqrt
            (weightedInDegree (gcnAug edges none N sl).1 (gcnAug edges none N sl).2 a.1
              * weightedInDegree (gcnAug edges none N sl).1 (gcnAug edges none N sl).2 a.2))
    ∧ ∀ d : ℝ, degInvSqrt 0 * degInvSqrt d = 0 ∧ degInvSqrt d * degInvSqrt 0 = 0 := by
  constructor
  · have hones := gcnAug_snd_ones edges N sl
    have hnn : ∀ i, 0 ≤ weightedInDegree (gcnAug edges none N sl).1
        (gcnAug edges none N sl).2 i :=
      fun i => weightedInDegree_nonneg _ _ i (fun c hc => (hones c hc) ▸ zero_le_one)
    show gcnWeights (gcnAug edges none N sl).1 (gcnAug edges none N sl).2 = _
    unfold gcnWeights
    rw [zip_map_of_ones _ _ _ (gcnAug_length_eq edges N sl) hones]
    apply List.map_congr_left
    intro a _
    rw [mul_one]
    exact degInvSqrt_mul _ _ (hnn a.1)
  · intro d
    constructor <;> simp [degInvSqrt, mul_comm]

/-- Unfolding the scatter-add over a leading edge. -/
theorem propagateAdd_cons (e : ℕ × ℕ) (c : ℝ) (ei : List (ℕ × ℕ)) (w : List ℝ)
    (x : Mat) (i j : ℕ) :
    propagateAdd (e :: ei) (c :: w) x i j
      = (if e.2 = i then c * x e.1 j else 0) + propagateAdd ei w x i j := by
  simp only [propagateAdd, List.zip_cons_cons, List.filter_cons]
  by_cases h : e.2 = i <;> simp [h]

/-- The scatter-add splits over appended aligned edge and weight lists. -/
theorem propagateAdd_append (A C : List (ℕ × ℕ)) (B D : List ℝ)
    (h : A.length = B.length) (x : Mat) (i j : ℕ) :
    propagateAdd (A ++ C) (B ++ D) x i j
      = propagateAdd A B x i j + propagateAdd C D x i j := by
  simp [propagateAdd, List.zip_append h, List.filter_append]

/-- A node with no incoming edge receives a zero scatter-add. -/
theorem propagateAdd_no_incoming (ei : List (ℕ × ℕ)) (w : List ℝ) (x : Mat)
    (v j : ℕ) (h : ∀ e ∈ ei, e.2 ≠ v) : propagateAdd ei w x v j = 0 := by
  have hnil : (ei.zip w).filter (fun e => e.1.2 == v) = [] := by
    rw [List.filter_eq_nil_iff]
    intro e he
    simpa using h e.1 (List.of_mem_zip he).1
  simp [propagateAdd, hnil]

/-- With all-ones weights the scatter-add is the plain sum of the source
features over the incoming edges. -/
theorem propagateAdd_ones (ei : List (ℕ × ℕ)) (w : List ℝ) (x : Mat) (i j : ℕ)
    (hl : ei.length = w.length) (hw : ∀ c ∈ w, c = 1) :
    propagateAdd ei w x i j
      = ((ei.filter (fun e => e.2 == i)).map (fun e => x e.1 j)).sum := by
  induction ei generalizing w with
  | nil => simp [propagateAdd]
  | cons a t ih =>
      cases w with
      | nil => simp at hl
      | cons c wt =>
          have hc : c = 1 := hw c (List.mem_cons_self c wt)
          rw [propagateAdd_cons,
            ih wt (by simpa using hl) (fun d hd => hw d (List.mem_cons_of_mem _ hd)),
            List.filter_cons]
          by_cases h : a.2 = i <;> simp [h, hc]

/-- Scatter-add over the self-loop block when the node is absent. -/
theorem propagateAdd_loops_not_mem (l : List ℕ) (g : ℕ → ℝ) (x : Mat) (v j : ℕ)
    (hv : v ∉ l) :
    propagateAdd (l.map fun i => (i, i)) (l.map g) x v j = 0 := by
  apply propagateAdd_no_incoming
  intro e he hev
  rcases List.mem_map.mp he with ⟨i, hi, rfl⟩
  exact hv (hev ▸ hi)

/-- Scatter-add over the self-loop block of a duplicate-free node list
containing the node: only the node's own loop contributes. -/
theorem propagateAdd_loops (l : List ℕ) (g : ℕ → ℝ) (x : Mat) (v j : ℕ)
    (hnd : l.Nodup) (hv : v ∈ l) :
    propagateAdd (l.map fun i => (i, i)) (l.map g) x v j = g v * x v j := by
  induction l with
  | nil => cases hv
  | cons a t ih =>
      rw [List.map_cons, List.map_cons, propagateAdd_cons]
      rcases List.mem_cons.mp hv with rfl | hvt
      · rw [propagateAdd_loops_not_mem t g x v j (List.nodup_cons.mp hnd).1]
        simp
      · have hne : a ≠ v := fun h => ((List.nodup_cons.mp hnd).1 (h ▸ hvt))
        rw [ih (List.nodup_cons.mp hnd).2 hvt]
        simp [hne]

/-- Unfolding the incoming-edge count over a leading edge. -/
theorem inCount_cons (e : ℕ × ℕ) (ei : List (ℕ × ℕ)) (v : ℕ) :
    inCount (e :: ei) v = (if e.2 = v then 1 else 0) + inCount ei v := by
  simp only [inCount, List.filter_cons]
  by_cases h : e.2 = v <;> simp [h, Nat.add_comm]

/-- The incoming-edge count splits over appended edge lists. -/
theorem inCount_append (A C : List (ℕ × ℕ)) (v : ℕ) :
    inCount (A ++ C) v = inCount A v + inCount C v := by
  simp [inCount, List.filter_append]

/-- A node no edge points to has incoming-edge count zero. -/
theorem inCount_no_incoming (ei : List (ℕ × ℕ)) (v : ℕ)
    (h : ∀ e ∈ ei, e.2 ≠ v) : inCount ei v = 0 := by
  rw [inCount, List.length_eq_zero, List.filter_eq_nil_iff]
  intro e he
  simpa using h e he

/-- The self-loop block of a duplicate-free node list yields exactly one
incoming edge at a member node. -/
theorem inCount_loops (l : List ℕ) (v : ℕ) (hnd : l.Nodup) (hv : v ∈ l) :
    inCount (l.map fun i => (i, i)) v = 1 := by
  induction l with
  | nil => cases hv
  | cons a t ih =>
      rw [List.map_cons, inCount_cons]
      rcases List.mem_cons.mp hv with rfl | hvt
      · have hnt : v ∉ t := (List.nodup_cons.mp hnd).1
        rw [inCount_no_incoming (t.map fun i => (i, i)) v]
        · simp
        · intro e he hev
          rcases List.mem_map.mp he with ⟨i, hi, rfl⟩
          exact hnt (hev ▸ hi)
      · have hne : a ≠ v := fun h => ((List.nodup_cons.mp hnd).1 (h ▸ hvt))
        rw [ih (List.nodup_cons.mp hnd).2 hvt]
        simp [hne]

/-- A node that is the source of no edge keeps the fill value as its
appended self-loop weight. -/
theorem loopWeight_isolated (edges : List (ℕ × ℕ)) (w : List ℝ) (fill : ℝ)
    (v : ℕ) (h : ∀ e ∈ edges, e.1 ≠ v) :
    loopWeight (edges.zip w) fill v = fill := by
  unfold loopWeight
  have hnil : (edges.zip w).filter (fun e => e.1.1 == v && e.1.2 == v) = [] := by
    rw [List.filter_eq_nil_iff]
    intro e he
    have h1 := h e.1 (List.of_mem_zip he).1
    simp [h1]
  rw [hnil]
  rfl

/-- The uniform path resolves, with no caller-supplied weights, to the
all-ones (possibly self-loop augmented) pair described by `gcnAug`. -/
theorem resolveEdges_mean (ic oc : ℕ) (W : ℕ → ℕ → ℝ) (bb : ℕ → ℝ) (K : ℕ)
    (p : ℝ) (cch : Bool) (edges : List (ℕ × ℕ)) (N : ℕ) :
    KProp.resolveEdges ⟨ic, oc, W, bb, K, p, "mean", cch⟩ edges none N
      = gcnAug edges none N (K == 1) := by
  simp [KProp.resolveEdges, KProp.addSelfLoops, gcnAug]

/-- The uniform operator aggregates with `propagateMean`. -/
theorem aggOp_mean (ic oc : ℕ) (W : ℕ → ℕ → ℝ) (bb : ℕ → ℝ) (K : ℕ) (p : ℝ)
    (cch : Bool) (edges : List (ℕ × ℕ)) (ew : Option (List ℝ)) (N : ℕ) :
    KProp.aggOp ⟨ic, oc, W, bb, K, p, "mean", cch⟩ edges ew N
      = propagateMean
          (KProp.resolveEdges ⟨ic, oc, W, bb, K, p, "mean", cch⟩ edges ew N).1
          (KProp.resolveEdges ⟨ic, oc, W, bb, K, p, "mean", cch⟩ edges ew N).2 := by
  simp [KProp.aggOp, KProp.propagate, KProp.aggr]

/-- Claim C8: under the uniform (mean) aggregator, one aggregation step
computes, for each target node with at least one incoming resolved edge,
the arithmetic mean of the source-node features
over its incoming edges (including any added self-loop); and for an
isolated node (touched by no edge) with `K = 1` and `p = 0`, the diffused
feature equals the node's own original feature, via the added self-loop. -/
theorem KProp.mean_aggregation (edges : List (ℕ × ℕ)) (N : ℕ) :
    (∀ (ic oc : ℕ) (W : ℕ → ℕ → ℝ) (bb : ℕ → ℝ) (K : ℕ) (p : ℝ) (cch : Bool)
        (x : Mat) (i j : ℕ),
        0 < inCount (KProp.resolveEdges ⟨ic, oc, W, bb, K, p, "mean", cch⟩
            edges none N).1 i →
        KProp.aggOp ⟨ic, oc, W, bb, K, p, "mean", cch⟩ edges none N x i j
          = (((KProp.resolveEdges ⟨ic, oc, W, bb, K, p, "mean", cch⟩
                edges none N).1.filter (fun e => e.2 == i)).map
              (fun e => x e.1 j)).sum
            / (inCount (KProp.resolveEdges ⟨ic, oc, W, bb, K, p, "mean", cch⟩
                edges none N).1 i : ℝ))
    ∧ (∀ (ic oc : ℕ) (W : ℕ → ℕ → ℝ) (bb : ℕ → ℝ) (cch : Bool) (x : Mat)
        (v j : ℕ), v < N → (∀ e ∈ edges, e.1 ≠ v ∧ e.2 ≠ v) →
        KProp.neighborhood_aggregation ⟨ic, oc, W, bb, 1, 0, "mean", cch⟩
            x edges none N v j = x v j) := by
  constructor
  · intro ic oc W bb K p cch x i j hcnt
    rw [aggOp_mean, propagateMean, resolveEdges_mean] at *
    rw [propagateAdd_ones _ _ x i j (gcnAug_length_eq edges N (K == 1))
      (gcnAug_snd_ones edges N (K == 1))]
    rw [Nat.max_eq_left hcnt]
  · intro ic oc W bb cch x v j hvN hiso
    have h1 : KProp.neighborhood_aggregation ⟨ic, oc, W, bb, 1, 0, "mean", cch⟩
        x edges none N v j
        = 1 * KProp.aggOp ⟨ic, oc, W, bb, 1, 0, "mean", cch⟩ edges none N x v j :=
      rfl
    have hres : KProp.resolveEdges ⟨ic, oc, W, bb, 1, 0, "mean", cch⟩ edges none N
        = add_remaining_self_loops edges (List.replicate edges.length 1) N 1 := by
      simp [KProp.resolveEdges, KProp.addSelfLoops, gcnAug]
    have hsrc : ∀ e ∈ (edges.zip (List.replicate edges.length (1 : ℝ))).filter
        (fun e => e.1.1 != e.1.2), e.1.2 ≠ v := by
      intro e he
      exact (hiso e.1 (List.of_mem_zip (List.mem_filter.mp he).1).1).2
    have hA : ∀ e' ∈ ((edges.zip (List.replicate edges.length (1 : ℝ))).filter
        (fun e => e.1.1 != e.1.2)).map Prod.fst, e'.2 ≠ v := by
      intro e' he'
      rcases List.mem_map.mp he' with ⟨q, hq, rfl⟩
      exact hsrc q hq
    have hadd : propagateAdd
        (add_remaining_self_loops edges (List.replicate edges.length 1) N 1).1
        (add_remaining_self_loops edges (List.replicate edges.length 1) N 1).2
        x v j = x v j := by
      rw [add_remaining_self_loops, propagateAdd_append _ _ _ _ (by simp),
        propagateAdd_no_incoming _ _ _ _ _ hA, zero_add,
        propagateAdd_loops (List.range N) _ x v j (List.nodup_range N)
          (List.mem_range.mpr hvN),
        loopWeight_isolated edges _ 1 v (fun e he => (hiso e he).1), one_mul]
    have hcnt : inCount
        (add_remaining_self_loops edges (List.replicate edges.length 1) N 1).1
        v = 1 := by
      rw [add_remaining_self_loops, inCount_append,
        inCount_no_incoming _ _ hA,
        inCount_loops (List.range N) v (List.nodup_range N)
          (List.mem_range.mpr hvN)]
    rw [h1, one_mul, aggOp_mean, hres, propagateMean, hadd, hcnt]
    norm_num

/-- Claim C8, witness: (a) for a concrete mean operator on the empty edge
list with one node, the aggregated value at node 0 matches the incoming
mean formula; (b) a concrete isolated node 2 with `K = 1`, `p = 0` keeps
its own feature. -/
theorem KProp.mean_aggregation_witness :
    KProp.aggOp ⟨1, 1, fun _ _ => 0, fun _ => 0, 1, 0, "mean", false⟩ [] none 1
        (fun i _ => (i : ℝ)) 0 0
      = (((KProp.resolveEdges ⟨1, 1, fun _ _ => 0, fun _ => 0, 1, 0, "mean", false⟩
            [] none 1).1.filter (fun e => e.2 == 0)).map
          (fun e => (fun i _ => (i : ℝ)) e.1 0)).sum
        / (inCount (KProp.resolveEdges
            ⟨1, 1, fun _ _ => 0, fun _ => 0, 1, 0, "mean", false⟩ [] none 1).1 0 : ℝ)
    ∧ KProp.neighborhood_aggregation
        ⟨1, 1, fun _ _ => 0, fun _ => 0, 1, 0, "mean", false⟩
        (fun i _ => (i : ℝ)) [(0, 1)] none 3 2 0 = (fun i _ => (i : ℝ)) 2 0 :=
  ⟨(KProp.mean_aggregation [] 1).1 1 1 (fun _ _ => 0) (fun _ => 0) 1 0 false
      (fun i _ => (i : ℝ)) 0 0 (by decide),
   (KProp.mean_aggregation [(0, 1)] 3).2 1 1 (fun _ _ => 0) (fun _ => 0) false
      (fun i _ => (i : ℝ)) 2 0 (by decide) (by decide)⟩

end DPGNN
